import Mathlib

/-!
Verification of the Kademlia load balancer (`network/kademlialoadbalancer.go`).

The development shallowly embeds the source file:

* `Peer`, `PeerBin`, `LBPeer`, `LBBin` mirror the Go types; a peer is identified
  by its `Key()` string (the hex encoding of its address; per the data model two
  peers with the same key are the same peer, so Go pointer comparison of peers
  is modelled by key equality).
* `resourceUseStats` is modelled by `UseStats`: the `resourceUses` map, the
  `waiting` map (only its key set matters: each entry holds a fresh unbuffered
  channel), and a `wedged` flag.  The flag models the single `sync.RWMutex`:
  every operation of the Go table acquires the mutex as its first statement and
  holds it until it returns, so at the granularity of observable states the
  operations are atomic critical sections.  Three code paths block forever
  while still holding the write lock: `waitKey` receives from the per-key
  channel inside its critical section (no sender can ever acquire the lock to
  send), `initKey` sends on a waiter channel inside its critical section (no
  receiver can be parked without holding the same lock), and `removedPeer`
  executes `defer lock.Lock()` (a second Lock of the already-held mutex).
  After any of these, the write lock is held by a parked goroutine forever and
  every later operation blocks at its initial Lock/RLock: this is the `wedged`
  state.  `stepOp` records for each operation whether the call returned
  (`returned`), the value it returned, and the table state it left behind.
* Go's `map[string]int` is modelled by an association list read through
  `mapGet` (absent keys read as the zero value, as in Go).
* Go 1.13's `sort.Slice` (the toolchain pinned by the repository's CI) is not
  a stable sort: `quickSort` sorts any range of at most 12 elements by a
  gap-6 ShellSort pass followed by insertion sort.  `sortSliceGo` below models
  exactly that small-range path (`shellPass6` then a stable insertion sort,
  which agrees with Go's left-to-right insertion sort because both are stable
  for the same comparator).  For ranges longer than 12 the real library
  switches to quicksort; both the model and the library satisfy the
  `sort.Slice` contract there (result sorted by the comparator, stability not
  guaranteed), which is all the theorems below use for unbounded lengths,
  and the concrete counterexample has 7 elements, where the model is the
  library's exact algorithm.
* The Kademlia overlay itself is not part of the source file: following the
  interface description, `EachBinDesc` enumeration is modelled by the list of
  bins it would deliver (descending proximity order), `EachConn` by the list
  of connections it would yield, and the error case of `EachBinDescFiltered`
  by an `Except` value.
-/

namespace KLB

/-- A peer handle; `key` is the Go `Peer.Key()` string (hex of the address).
Two peers with the same key are the same peer, so key equality stands in for
Go pointer equality of peers. -/
structure Peer where
  key : String
deriving DecidableEq, Repr, Inhabited

/-- Go `map[string]int`: an association list, looked up by first match.
All operations below keep at most one entry per key. -/
abbrev CountMap := List (String × Nat)

/-- Reading a Go map: an absent key reads as the zero value 0
(this is exactly `getKeyUses`, which returns `lb.resourceUses[key]`). -/
def mapGet : CountMap → String → Nat
  | [], _ => 0
  | p :: rest, k => if p.1 == k then p.2 else mapGet rest k

/-- Membership test of a Go map (the `_, ok :=` form used by `waitKey`). -/
def mapMem : CountMap → String → Bool
  | [], _ => false
  | p :: rest, k => p.1 == k || mapMem rest k

/-- Writing a Go map entry: overwrite the entry if present, append otherwise. -/
def mapSet : CountMap → String → Nat → CountMap
  | [], k, v => [(k, v)]
  | p :: rest, k, v => if p.1 == k then (k, v) :: rest else p :: mapSet rest k v

/-- Go `delete` on a map. -/
def mapDel : CountMap → String → CountMap
  | [], _ => []
  | p :: rest, k => if p.1 == k then mapDel rest k else p :: mapDel rest k

/-- State of `resourceUseStats`.  `waiting` holds the keys of the Go
`waiting` map (each mapped to a fresh unbuffered channel with no pending
messages, so only the key set matters).  `wedged` is true once some goroutine
is parked forever while holding the write lock (see the file comment); in a
wedged state every subsequent table operation blocks at its initial
Lock/RLock and the maps can never change again. -/
structure UseStats where
  resourceUses : CountMap
  waiting : List String
  wedged : Bool
deriving DecidableEq, Repr

/-- The state `newResourceLoadBalancer()` returns: both maps empty, lock free. -/
def UseStats.empty : UseStats := ⟨[], [], false⟩

/-- The pure content of `getKeyUses` (the map read it performs under RLock). -/
def getKeyUses (s : UseStats) (k : String) : Nat := mapGet s.resourceUses k

/-- The five operations of `resourceUseStats` (plus peer removal, which the
removed-peer listener performs directly on the table). -/
inductive TableOp where
  | getUses (k : String)
  | addUse (k : String)
  | initKey (k : String) (c : Nat)
  | waitKey (k : String)
  | removedPeer (k : String)
deriving DecidableEq, Repr

/-- Result of running one table operation: the table state left behind,
whether the call ever returned to its caller, and the returned integer
(0 for operations that return nothing). -/
structure StepRes where
  state : UseStats
  returned : Bool
  value : Nat
deriving DecidableEq, Repr

/-- One table operation, faithful to the Go code including its locking:

* in a wedged state every operation blocks at its first Lock/RLock and
  nothing changes;
* `getUses`: RLock; return `resourceUses[key]`;
* `addUse`: Lock; `resourceUses[key] = resourceUses[key] + 1`; return it;
* `initKey`: Lock; `resourceUses[key] = count`; if a waiter channel exists,
  send on it — but a registered waiter is parked holding this same write
  lock, so reaching the send with the lock just acquired means no receiver
  can exist and the unbuffered send parks forever, wedging the table;
* `waitKey`: Lock; if the key is initialized, return; otherwise store a fresh
  channel and receive from it while still holding the write lock — no sender
  can ever acquire the lock, so the receive parks forever and the table is
  wedged;
* `removedPeer`: Lock (with `defer Lock` instead of `defer Unlock`);
  `delete(resourceUses, key)`; on return the deferred second `Lock()` of the
  held mutex parks forever, wedging the table. -/
def stepOp (s : UseStats) : TableOp → StepRes
  | .getUses k =>
      if s.wedged then ⟨s, false, 0⟩
      else ⟨s, true, getKeyUses s k⟩
  | .addUse k =>
      if s.wedged then ⟨s, false, 0⟩
      else
        let n := getKeyUses s k + 1
        ⟨{ s with resourceUses := mapSet s.resourceUses k n }, true, n⟩
  | .initKey k c =>
      if s.wedged then ⟨s, false, 0⟩
      else
        let s' : UseStats := { s with resourceUses := mapSet s.resourceUses k c }
        if s.waiting.contains k then ⟨{ s' with wedged := true }, false, 0⟩
        else ⟨s', true, 0⟩
  | .waitKey k =>
      if s.wedged then ⟨s, false, 0⟩
      else if mapMem s.resourceUses k then ⟨s, true, 0⟩
      else ⟨{ s with waiting := k :: s.waiting, wedged := true }, false, 0⟩
  | .removedPeer k =>
      if s.wedged then ⟨s, false, 0⟩
      else ⟨{ s with resourceUses := mapDel s.resourceUses k, wedged := true }, false, 0⟩

/-- Run a sequence of table operations from a state, keeping only states. -/
def runOps (s : UseStats) (ops : List TableOp) : UseStats :=
  ops.foldl (fun s op => (stepOp s op).state) s

/-- Run a sequence of table operations, recording every step's result. -/
def runTrace (s : UseStats) : List TableOp → List StepRes
  | [] => []
  | op :: ops =>
      let r := stepOp s op
      r :: runTrace r.state ops

/-- Invariant used for the wait-map/count-map disjointness proof: whenever the
lock is free the wait map is empty (a waiter parks holding the write lock the
moment it registers), and a key in the wait map is never in the count map. -/
def StatsInv (s : UseStats) : Prop :=
  (s.wedged = false → s.waiting = []) ∧
    ∀ k, s.waiting.contains k = true → mapMem s.resourceUses k = false

/-- Go's `ResourceCount` with the resource specialized to a peer (the only
resource the load balancer builds): the peer paired with the use count read
by `getAllUses`. -/
abbrev RCount := Peer × Nat

/-- The non-strict companion of the `sort.Slice` comparator
`resourceCounts[i].count < resourceCounts[j].count`; sortedness of the
produced slices is stated with it. -/
def rcLE (x y : RCount) : Prop := x.2 ≤ y.2

instance : DecidableRel rcLE := fun x y => Nat.decLe x.2 y.2

instance : IsTotal RCount rcLE := ⟨fun x y => Nat.le_total x.2 y.2⟩

instance : IsTrans RCount rcLE := ⟨fun _ _ _ h h2 => Nat.le_trans h h2⟩

/-- One step of the gap-6 ShellSort pass of Go 1.13 `quickSort` on a range of
at most 12 elements: `if data.Less(i, i-6) { data.Swap(i, i-6) }`, executed
for `i` from 6 upward. -/
def gap6Step (l : List RCount) (i : Nat) : List RCount :=
  if 6 ≤ i ∧ i < l.length then
    if (l.getD i default).2 < (l.getD (i - 6) default).2 then
      (l.set (i - 6) (l.getD i default)).set i (l.getD (i - 6) default)
    else l
  else l

/-- The full gap-6 ShellSort pass (`for i := a + 6; i < b; i++`). -/
def shellPass6 (l : List RCount) : List RCount :=
  (List.range l.length).foldl gap6Step l

/-- Go's `insertionSort` on the shell-passed range.  Go's left-to-right
insertion sort is a stable sort for the `Less` comparator, and a stable sort
of a list by a fixed total preorder is unique, so it is modelled by the
stable `List.insertionSort`. -/
def insertionSortByCount (l : List RCount) : List RCount :=
  l.insertionSort rcLE

/-- Model of Go 1.13 `sort.Slice` with the comparator used by
`sortResources`.  For slices of length at most 12 this is the library's
exact algorithm (`quickSort` immediately falls through to the ShellSort pass
plus insertion sort); for longer slices the library's quicksort path and this
model both satisfy the `sort.Slice` contract — sorted by the comparator,
stability not guaranteed — which is all the unbounded-length theorems use. -/
def sortSliceGo (l : List RCount) : List RCount :=
  insertionSortByCount (shellPass6 l)

/-- `getAllUses`: pair every resource with its current use count. -/
def getAllUses (s : UseStats) (resources : List Peer) : List RCount :=
  resources.map (fun r => (r, getKeyUses s r.key))

/-- `sortResources`: read all counts, `sort.Slice` by ascending count, and
project the resources back out. -/
def sortResources (s : UseStats) (resources : List Peer) : List Peer :=
  (sortSliceGo (getAllUses s resources)).map Prod.fst

/-- An `LBPeer` as handed to consumers.  Its Go `Use` closure captures the
per-iteration variable `peer` (so each callback is bound to its own peer);
the closure's semantics is `LBPeer.use` below. -/
structure LBPeer where
  peer : Peer
deriving DecidableEq, Repr, Inhabited

/-- Semantics of the `Use` closure built by `toLBPeers`:
`klb.resourceUseStats.addUse(peer)`. -/
def LBPeer.use (e : LBPeer) (s : UseStats) : UseStats :=
  (stepOp s (.addUse e.peer.key)).state

/-- `toLBPeers`: wrap each sorted resource with its use callback. -/
def toLBPeers (resources : List Peer) : List LBPeer :=
  resources.map LBPeer.mk

/-- A bin delivered by the overlay's `EachBinDesc`: its proximity order, its
`Size` field, and the peers its `PeerIterator` yields, in iterator order. -/
structure PeerBin where
  proximityOrder : Nat
  size : Nat
  peers : List Peer
deriving DecidableEq, Repr

/-- The `LBBin` handed to an `LBBinConsumer`. -/
structure LBBin where
  lbPeers : List LBPeer
  proximityOrder : Nat
deriving DecidableEq, Repr

/-- `resourcesToLbPeers`: sort, then wrap. -/
def resourcesToLbPeers (s : UseStats) (resources : List Peer) : List LBPeer :=
  toLBPeers (sortResources s resources)

/-- `peerBinToPeerList`: collect the bin's iterated peers and hand them to
`resourcesToLbPeers`.  (The Go code copies the iterator's yield into a
preallocated `make([]Resource, bin.Size)`; per the Bin interface `Size` is
the number of peers the iterator yields, which theorems about the `Size`
field take as a hypothesis.) -/
def peerBinToPeerList (s : UseStats) (bin : PeerBin) : List LBPeer :=
  resourcesToLbPeers s bin.peers

/-- `EachBin` / `EachBinDesc` interplay: the overlay delivers `bins` in
descending proximity order; for each one the consumer receives the projected
`LBBin` and halts the enumeration by returning false.  The result is the
list of `LBBin`s actually delivered to the consumer. -/
def eachBinDeliver (s : UseStats) (consumer : LBBin → Bool) : List PeerBin → List LBBin
  | [] => []
  | bin :: rest =>
      if consumer ⟨peerBinToPeerList s bin, bin.proximityOrder⟩ then
        ⟨peerBinToPeerList s bin, bin.proximityOrder⟩ :: eachBinDeliver s consumer rest
      else [⟨peerBinToPeerList s bin, bin.proximityOrder⟩]

/-- `EachBin(base, consumeBin)` with `bins` the overlay's enumeration for
`base` at minimum proximity order 0. -/
def eachBin (bins : List PeerBin) (s : UseStats) (consumer : LBBin → Bool) : List LBBin :=
  eachBinDeliver s consumer bins

/-- `EachBinFiltered`.  Modelled from the spec: the overlay backend (not part
of the source file) refuses a bad capability filter by returning an error
without delivering any bin, represented by the `Except` argument.  The Go
code executes `_ = klb.kademlia.EachBinDescFiltered(...)`: the error is
discarded and the method returns nothing, so the caller observes only the
consumer invocations — which are none in the error case. -/
def eachBinFiltered (filteredEnum : Except String (List PeerBin)) (s : UseStats)
    (consumer : LBBin → Bool) : List LBBin :=
  match filteredEnum with
  | .error _ => []
  | .ok bins => eachBinDeliver s consumer bins

/-- `getPeersForPo`: run `EachBinDesc(base, po, ...)` (which delivers the
bins of proximity order at least `po`), keep exactly the peers of the bins
whose proximity order equals `po`, and sort them. -/
def getPeersForPo (s : UseStats) (bins : List PeerBin) (po : Nat) : List LBPeer :=
  let resources :=
    (bins.filter (fun b => po ≤ b.proximityOrder)).foldl
      (fun acc b => if b.proximityOrder == po then acc ++ b.peers else acc) []
  resourcesToLbPeers s resources

/-- `leastUsedCountInBin`: scan the sorted peers of the bin at `po`, adopt
the count of the first one whose key differs from the excluded peer's key,
or 0 when there is none. -/
def leastUsedCountInBin (s : UseStats) (bins : List PeerBin) (excludePeer : Peer) (po : Nat) : Nat :=
  let peersInSamePo := getPeersForPo s bins po
  match peersInSamePo.find? (fun lb => lb.peer.key != excludePeer.key) with
  | some lb => getKeyUses s lb.peer.key
  | none => 0

/-- `mostSimilarPeerCount`: `conns` is the overlay's `EachConn` enumeration
from the new peer's own address (descending proximity order); adopt the
count of the first connection that is not the new peer, or 0 when there is
none.  (Go compares peer pointers; distinct peers have distinct keys, so
structural inequality models it.) -/
def mostSimilarPeerCount (s : UseStats) (conns : List Peer) (newPeer : Peer) : Nat :=
  match conns.find? (fun p => p != newPeer) with
  | some p => getKeyUses s p.key
  | none => 0

/-- `addedPeer` under the least-used-in-bin strategy.  Note the Go call
`initCount := klb.initCountFunc(peer, 0)`: the literal 0 is passed where the
function's own comment says the peer's proximity order `po` is handed down to
avoid recomputing it, so `po` is received but never used. -/
def addedPeerLeastUsed (s : UseStats) (bins : List PeerBin) (peer : Peer) (po : Nat) : UseStats :=
  (stepOp s (.initKey peer.key (leastUsedCountInBin s bins peer 0))).state

/-- `addedPeer` under the most-similar-peer strategy (the strategy ignores
the proximity-order argument entirely). -/
def addedPeerMostSimilar (s : UseStats) (conns : List Peer) (peer : Peer) : UseStats :=
  (stepOp s (.initKey peer.key (mostSimilarPeerCount s conns peer))).state

/-- A message received from the added-peer subscription channel: either a
`newPeerSignal`, or anything else — a payload failing the `newPeerSignal`
type assertion or a closed channel (`!ok`), both of which make
`listenNewPeers` return. -/
inductive NewPeerMsg where
  | signal (peer : Peer) (po : Nat)
  | other
deriving DecidableEq, Repr

/-- The added-peer events `listenNewPeers` hands to `addedPeer`, given the
stream of messages its channel delivers: it processes signals in order and
returns permanently at the first non-signal message, ignoring everything
after it. -/
def listenNewPeersProcessed : List NewPeerMsg → List (Peer × Nat)
  | [] => []
  | .signal p po :: rest => (p, po) :: listenNewPeersProcessed rest
  | .other :: _ => []

/-- A message received from the removed-peer subscription channel: a peer, or
anything else (nil or a payload failing the `*Peer` type assertion), which
`listenOffPeers` skips without leaving its loop. -/
inductive OffPeerMsg where
  | peerMsg (p : Peer)
  | other
deriving DecidableEq, Repr

/-- The removals `listenOffPeers` hands to `removedPeer`: every peer message
of the stream, in order; non-peer messages are skipped and the loop
continues. -/
def listenOffPeersProcessed : List OffPeerMsg → List Peer
  | [] => []
  | .peerMsg p :: rest => p :: listenOffPeersProcessed rest
  | .other :: rest => listenOffPeersProcessed rest

/-- Incumbent peer A of the least-used scenario. -/
def peerA : Peer := ⟨"a"⟩

/-- Incumbent peer B of the least-used scenario. -/
def peerB : Peer := ⟨"b"⟩

/-- Incumbent peer C of the least-used scenario. -/
def peerC : Peer := ⟨"c"⟩

/-- The newly added peer D of the least-used scenario. -/
def peerD : Peer := ⟨"d"⟩

/-- The least-used scenario's bin at proximity order 2, once D is admitted:
incumbents A, B, C plus the newcomer D. -/
def c1Bin : PeerBin := ⟨2, 4, [peerA, peerB, peerC, peerD]⟩

/-- The least-used scenario's table: A, B, C hold counts 5, 2, 7. -/
def c1Stats : UseStats := ⟨[("a", 5), ("b", 2), ("c", 7)], [], false⟩

/-- Seven peers in overlay enumeration order for the sort-stability
counterexample. -/
def c2Peers : List Peer := [⟨"q0"⟩, ⟨"q1"⟩, ⟨"q2"⟩, ⟨"q3"⟩, ⟨"q4"⟩, ⟨"q5"⟩, ⟨"q6"⟩]

/-- One bin holding the seven peers. -/
def c2Bin : PeerBin := ⟨3, 7, c2Peers⟩

/-- Table for the stability counterexample: the first six peers hold count 1,
the last one is absent (count 0). -/
def c2Stats : UseStats :=
  ⟨[("q0", 1), ("q1", 1), ("q2", 1), ("q3", 1), ("q4", 1), ("q5", 1)], [], false⟩

/-- The entries of the single bin `EachBin` delivers in the stability
counterexample. -/
def c2Entries : List LBPeer :=
  ((eachBin [c2Bin] c2Stats (fun _ => true)).headD ⟨[], 0⟩).lbPeers

/-- The single `LBBin` delivered in the seven-peer scenario, used to witness
the sortedness theorem on a concrete input. -/
def c2LB : LBBin := ⟨peerBinToPeerList c2Stats c2Bin, 3⟩

/-- Invoking an entry's use callback `n` times in a row, starting from a
given table state. -/
def iterUse (e : LBPeer) : Nat → UseStats → UseStats
  | 0, s => s
  | n + 1, s => iterUse e n (e.use s)

/-- The add-use-remove-add scenario: Added(P) with count 0, four uses,
Removed(P), Added(P) with count 0 again, and a final read of P's count. -/
def c6Trace : List TableOp :=
  [.initKey "p" 0, .addUse "p", .addUse "p", .addUse "p", .addUse "p",
   .removedPeer "p", .initKey "p" 0, .getUses "p"]

/-- The most-similar scenario's closest connection to D. -/
def peerE : Peer := ⟨"e"⟩

/-- The most-similar scenario's table: the closest non-D connection E holds
count 9. -/
def c7Stats : UseStats := ⟨[("e", 9)], [], false⟩

/-- Writing a key and reading it back yields the written value. -/
theorem mapGet_mapSet_self (m : CountMap) (k : String) (v : Nat) :
    mapGet (mapSet m k v) k = v := by
  induction m with
  | nil => simp [mapGet, mapSet]
  | cons p rest ih =>
      by_cases h : (p.1 == k) = true
      · simp [mapSet, h, mapGet]
      · simp [mapSet, h, mapGet, ih]

/-- A key absent from the map reads as 0 (the Go zero value). -/
theorem mapGet_eq_zero_of_mapMem_false (m : CountMap) (k : String)
    (h : mapMem m k = false) : mapGet m k = 0 := by
  induction m with
  | nil => rfl
  | cons p rest ih =>
      simp only [mapMem, Bool.or_eq_false_iff] at h
      simp [mapGet, h.1, ih h.2]

/-- Exchanging the elements at two distinct positions permutes the list. -/
theorem set_swap_perm {α : Type} [DecidableEq α] (l : List α) {i j : Nat} (hij : i ≠ j)
    (hi : i < l.length) (hj : j < l.length) :
    ((l.set i l[j]).set j l[i]).Perm l := by
  rw [List.perm_iff_count]
  intro a
  have hj2 : j < (l.set i l[j]).length := by simpa using hj
  rw [List.count_set l[i] a (l.set i l[j]) j hj2]
  rw [List.count_set l[j] a l i hi]
  rw [List.getElem_set_ne hij]
  have hmi : l[i] ∈ l := List.getElem_mem hi
  by_cases h1 : l[i] = a
  · have hp : 0 < List.count a l := List.count_pos_iff.mpr (h1 ▸ hmi)
    by_cases h2 : l[j] = a <;> simp [h1, h2] <;> omega
  · by_cases h2 : l[j] = a <;> simp [h1, h2] <;> omega

/-- One gap-6 step permutes the slice. -/
theorem gap6Step_perm (l : List RCount) (i : Nat) : (gap6Step l i).Perm l := by
  unfold gap6Step
  split
  · rename_i h
    obtain ⟨h6, hlen⟩ := h
    have hlen2 : i - 6 < l.length := lt_of_le_of_lt (Nat.sub_le i 6) hlen
    rw [List.getD_eq_getElem l default hlen, List.getD_eq_getElem l default hlen2]
    split
    · exact set_swap_perm l (by omega) hlen2 hlen
    · exact List.Perm.refl l
  · exact List.Perm.refl l

/-- Folding gap-6 steps over any index list permutes the slice. -/
theorem foldl_gap6_perm (r : List Nat) : ∀ l : List RCount, (r.foldl gap6Step l).Perm l := by
  induction r with
  | nil => intro l; exact List.Perm.refl l
  | cons i r ih => intro l; exact (ih (gap6Step l i)).trans (gap6Step_perm l i)

/-- The ShellSort pass permutes the slice. -/
theorem shellPass6_perm (l : List RCount) : (shellPass6 l).Perm l :=
  foldl_gap6_perm (List.range l.length) l

/-- The modelled `sort.Slice` permutes the slice (every operation it
performs is a swap). -/
theorem sortSliceGo_perm (l : List RCount) : (sortSliceGo l).Perm l := by
  unfold sortSliceGo insertionSortByCount
  exact (List.perm_insertionSort rcLE (shellPass6 l)).trans (shellPass6_perm l)

/-- The modelled `sort.Slice` sorts the slice in ascending count order (the
final insertion sort sorts whatever the ShellSort pass left). -/
theorem sortSliceGo_sorted (l : List RCount) : List.Sorted rcLE (sortSliceGo l) := by
  unfold sortSliceGo insertionSortByCount
  exact List.sorted_insertionSort rcLE (shellPass6 l)

/-- Projecting the paired-up counts back to resources recovers the input. -/
theorem getAllUses_map_fst (s : UseStats) (resources : List Peer) :
    (getAllUses s resources).map Prod.fst = resources := by
  unfold getAllUses
  rw [List.map_map]
  exact List.map_id resources

/-- `sortResources` returns a permutation of its input. -/
theorem sortResources_perm (s : UseStats) (resources : List Peer) :
    (sortResources s resources).Perm resources := by
  unfold sortResources
  have h := (sortSliceGo_perm (getAllUses s resources)).map Prod.fst
  rwa [getAllUses_map_fst] at h

/-- Every pair the modelled sort emits carries the count the table holds for
its resource. -/
theorem snd_eq_count_of_mem_sortSliceGo (s : UseStats) (resources : List Peer) (x : RCount)
    (hx : x ∈ sortSliceGo (getAllUses s resources)) : x.2 = getKeyUses s x.1.key := by
  have hx2 : x ∈ getAllUses s resources := (sortSliceGo_perm _).mem_iff.mp hx
  unfold getAllUses at hx2
  rw [List.mem_map] at hx2
  obtain ⟨r, _, rfl⟩ := hx2
  rfl

/-- The projected entries of a bin are pairwise ascending in their table
counts. -/
theorem pairwise_counts_resourcesToLbPeers (s : UseStats) (resources : List Peer) :
    List.Pairwise (fun a b : LBPeer => getKeyUses s a.peer.key ≤ getKeyUses s b.peer.key)
      (resourcesToLbPeers s resources) := by
  unfold resourcesToLbPeers toLBPeers sortResources
  rw [List.pairwise_map, List.pairwise_map]
  refine (sortSliceGo_sorted (getAllUses s resources)).imp_of_mem ?_
  intro x y hx hy hxy
  have hx2 := snd_eq_count_of_mem_sortSliceGo s resources x hx
  have hy2 := snd_eq_count_of_mem_sortSliceGo s resources y hy
  show getKeyUses s x.1.key ≤ getKeyUses s y.1.key
  rw [← hx2, ← hy2]
  exact hxy

/-- A bin delivered to the consumer is the projection of one of the
overlay's bins. -/
theorem mem_eachBinDeliver (s : UseStats) (consumer : LBBin → Bool) (bins : List PeerBin)
    (lb : LBBin) (h : lb ∈ eachBinDeliver s consumer bins) :
    ∃ bin ∈ bins, lb = ⟨peerBinToPeerList s bin, bin.proximityOrder⟩ := by
  induction bins with
  | nil => simp [eachBinDeliver] at h
  | cons bin rest ih =>
      unfold eachBinDeliver at h
      by_cases hc : consumer ⟨peerBinToPeerList s bin, bin.proximityOrder⟩ = true
      · rw [if_pos hc] at h
        rcases List.mem_cons.mp h with h1 | h2
        · exact ⟨bin, List.mem_cons_self bin rest, h1⟩
        · obtain ⟨b, hb, rfl⟩ := ih h2
          exact ⟨b, List.mem_cons_of_mem bin hb, rfl⟩
      · rw [if_neg hc] at h
        rw [List.mem_singleton] at h
        exact ⟨bin, List.mem_cons_self bin rest, h⟩

/-- Claim C1 (refuted by the code, which contradicts its own comment): with
incumbents A, B, C at proximity order 2 holding counts 5, 2, 7 and D added
at proximity order 2, `addedPeer` hands the literal 0 — not D's proximity
order — to `leastUsedCountInBin`, so D's count is initialized from the
(empty) bin at proximity order 0 and `get(D)` yields 0; the same
`leastUsedCountInBin`, handed the actual proximity order 2 as the code's
comment describes, yields 2, the count the claim expects. -/
theorem c1_added_peer_ignores_po :
    getKeyUses (addedPeerLeastUsed c1Stats [c1Bin] peerD 2) peerD.key = 0 ∧
    leastUsedCountInBin c1Stats [c1Bin] peerD 2 = 2 := by decide

/-- Claim C2, counterexample to the tie-order conjunct: in the delivered bin
of the seven-peer scenario there are entries of equal count that do not
appear in the overlay's enumeration order for the bin (the gap-6 ShellSort
pass of Go 1.13 `sort.Slice` moves the first equal-count peer behind the
other five). -/
theorem c2_counterexample :
    ¬ ∀ (i j : Fin c2Entries.length), i < j →
        getKeyUses c2Stats (c2Entries.get i).peer.key
          = getKeyUses c2Stats (c2Entries.get j).peer.key →
        c2Bin.peers.indexOf (c2Entries.get i).peer
          < c2Bin.peers.indexOf (c2Entries.get j).peer := by decide

/-- Claim C2 as amended: for every bin delivered by `EachBin`, the entries
are sorted ascending by use count (for all i < j,
count(entry i) ≤ count(entry j)); the output is a deterministic function of
the overlay and table state, but entries of equal count need not follow the
overlay's enumeration order, `sort.Slice` being unstable. -/
theorem c2_sorted_within_bin (bins : List PeerBin) (s : UseStats) (consumer : LBBin → Bool)
    (lb : LBBin) (hlb : lb ∈ eachBin bins s consumer) (i j : Fin lb.lbPeers.length)
    (hij : i < j) :
    getKeyUses s (lb.lbPeers.get i).peer.key ≤ getKeyUses s (lb.lbPeers.get j).peer.key := by
  obtain ⟨bin, _, rfl⟩ := mem_eachBinDeliver s consumer bins lb hlb
  exact List.pairwise_iff_get.mp (pairwise_counts_resourcesToLbPeers s bin.peers) i j hij

/-- Witness for the sortedness theorem at a concrete delivered bin. -/
theorem c2_sorted_within_bin_witness :
    getKeyUses c2Stats (c2LB.lbPeers.get ⟨0, by decide⟩).peer.key
      ≤ getKeyUses c2Stats (c2LB.lbPeers.get ⟨1, by decide⟩).peer.key :=
  c2_sorted_within_bin [c2Bin] c2Stats (fun _ => true) c2LB (by decide)
    ⟨0, by decide⟩ ⟨1, by decide⟩ (by decide)

/-- Claim C3 (refuted by the code): the interleaving that schedules
`waitKey(k)` before `initKey(k, c)` on a key absent from the count map
deadlocks — the waiter parks on its channel while still holding the write
lock, so it never returns, and the subsequent `initKey` blocks forever at
its `Lock()`; neither call completes. -/
theorem c3_wait_then_init_deadlocks :
    (stepOp UseStats.empty (.waitKey "k")).returned = false ∧
    (stepOp (stepOp UseStats.empty (.waitKey "k")).state (.initKey "k" 3)).returned = false ∧
    (stepOp (stepOp UseStats.empty (.waitKey "k")).state (.initKey "k" 3)).state.wedged
      = true := by decide

/-- Claim C4, counterexample to the surfacing conjunct: when the overlay
refuses the capability filter, `EachBinFiltered` discards the error
(`_ = klb.kademlia.EachBinDescFiltered(...)`) and returns nothing, so its
outcome is indistinguishable from a successful enumeration that found no
bins — nothing is surfaced to the caller. -/
theorem c4_counterexample :
    eachBinFiltered (Except.error "unknown capability") UseStats.empty (fun _ => true)
      = eachBinFiltered (Except.ok []) UseStats.empty (fun _ => true) := rfl

/-- Claim C4 as amended: when the overlay refuses the capability filter, the
failure is not surfaced — `EachBinFiltered` discards the error and returns
normally — and the consumer receives no bins. -/
theorem c4_error_discarded (e : String) (s : UseStats) (consumer : LBBin → Bool) :
    eachBinFiltered (Except.error e) s consumer = [] := rfl

/-- One use-callback invocation on a non-wedged table increments the entry's
count by one and leaves the table non-wedged. -/
theorem use_step (e : LBPeer) (s : UseStats) (hw : s.wedged = false) :
    getKeyUses (e.use s) e.peer.key = getKeyUses s e.peer.key + 1 ∧
      (e.use s).wedged = false := by
  unfold LBPeer.use
  simp [stepOp, hw, getKeyUses, mapGet_mapSet_self]

/-- Claim C5: for an entry e of a returned bin snapshot, invoking e's use
callback exactly k times with no intervening operation on e's key brings
`get(e.peer.key)` to its starting value plus k; and `addUse` on an absent
key creates it with value 1 and returns the new count. -/
theorem c5_use_accounting (bin : PeerBin) (stats s : UseStats) (e : LBPeer)
    (he : e ∈ peerBinToPeerList stats bin) (k : Nat) (hw : s.wedged = false) :
    getKeyUses (iterUse e k s) e.peer.key = getKeyUses s e.peer.key + k ∧
    (mapMem s.resourceUses e.peer.key = false →
      (stepOp s (TableOp.addUse e.peer.key)).value = 1 ∧
      getKeyUses (stepOp s (TableOp.addUse e.peer.key)).state e.peer.key = 1) := by
  constructor
  · induction k generalizing s with
    | zero => simp [iterUse]
    | succ n ih =>
        have h1 := use_step e s hw
        calc getKeyUses (iterUse e (n + 1) s) e.peer.key
            = getKeyUses (iterUse e n (e.use s)) e.peer.key := rfl
          _ = getKeyUses (e.use s) e.peer.key + n := ih (e.use s) h1.2
          _ = getKeyUses s e.peer.key + (n + 1) := by rw [h1.1]; omega
  · intro habs
    have hz : getKeyUses s e.peer.key = 0 :=
      mapGet_eq_zero_of_mapMem_false _ _ habs
    constructor
    · simp [stepOp, hw, getKeyUses] at hz ⊢
      simp [hz]
    · simp [stepOp, hw, getKeyUses, mapGet_mapSet_self]
      simp [getKeyUses] at hz
      simp [hz]

/-- Witness for the use-callback accounting at a concrete snapshot entry. -/
theorem c5_use_accounting_witness :
    getKeyUses (iterUse ⟨peerD⟩ 3 UseStats.empty) peerD.key
      = getKeyUses UseStats.empty peerD.key + 3 ∧
    (mapMem UseStats.empty.resourceUses peerD.key = false →
      (stepOp UseStats.empty (TableOp.addUse peerD.key)).value = 1 ∧
      getKeyUses (stepOp UseStats.empty (TableOp.addUse peerD.key)).state peerD.key = 1) :=
  c5_use_accounting c1Bin c1Stats UseStats.empty ⟨peerD⟩ (by decide) 3 rfl

/-- Claim C6 (refuted by the code): in the sequence Added(P) with count 0,
four uses, Removed(P), Added(P) with count 0, `get(P)` — the claim's
expected final read of 0 — never happens: `removedPeer` deletes the key but
then executes its deferred second `Lock()` of the held mutex and parks
forever, so the removal call and every operation after it (the second
`initKey` and the `getUses`) block; the trace's completion flags show the
first five operations returning and the last three blocked, and the table
ends wedged. -/
theorem c6_remove_wedges_table :
    (runTrace UseStats.empty c6Trace).map StepRes.returned
      = [true, true, true, true, true, false, false, false] ∧
    (runOps UseStats.empty c6Trace).wedged = true := by decide

/-- Claim C7: under the most-similar strategy, a newly added peer adopts the
count of the first connection in the overlay's enumeration from the new
peer's own address that is not the new peer itself; with that connection
holding count 9, `get` of the new peer yields 9 after the add. -/
theorem c7_most_similar_init (s : UseStats) (conns : List Peer) (newPeer p : Peer)
    (hw : s.wedged = false) (hwait : s.waiting.contains newPeer.key = false)
    (hfind : conns.find? (fun q => q != newPeer) = some p)
    (hcount : getKeyUses s p.key = 9) :
    getKeyUses (addedPeerMostSimilar s conns newPeer) newPeer.key = 9 := by
  unfold addedPeerMostSimilar mostSimilarPeerCount
  rw [hfind]
  have hwait2 : newPeer.key ∉ s.waiting := by simpa using hwait
  simp [stepOp, hw, hwait2, getKeyUses, mapGet_mapSet_self]
  exact hcount

/-- Witness for the most-similar initialization: the enumeration yields D
itself first, then E with count 9; D adopts 9. -/
theorem c7_most_similar_init_witness :
    getKeyUses (addedPeerMostSimilar c7Stats [peerD, peerE] peerD) peerD.key = 9 :=
  c7_most_similar_init c7Stats [peerD, peerE] peerD peerE rfl (by decide) (by decide) rfl

/-- The freshly constructed table satisfies the disjointness invariant. -/
theorem statsInv_empty : StatsInv UseStats.empty := by
  constructor
  · intro _; rfl
  · intro k h
    simp [UseStats.empty] at h

/-- Every table operation preserves the disjointness invariant. -/
theorem statsInv_step (s : UseStats) (op : TableOp) (h : StatsInv s) :
    StatsInv (stepOp s op).state := by
  obtain ⟨h1, h2⟩ := h
  by_cases hw : s.wedged = true
  · have hstate : (stepOp s op).state = s := by
      cases op <;> simp [stepOp, hw]
    rw [hstate]
    exact ⟨h1, h2⟩
  · have hw2 : s.wedged = false := by simpa using hw
    have hwl : s.waiting = [] := h1 hw2
    cases op with
    | getUses k =>
        have hstate : (stepOp s (.getUses k)).state = s := by simp [stepOp, hw2]
        rw [hstate]
        exact ⟨h1, h2⟩
    | addUse k =>
        have hstate : (stepOp s (.addUse k)).state
            = { s with resourceUses := mapSet s.resourceUses k (getKeyUses s k + 1) } := by
          simp [stepOp, hw2]
        rw [hstate]
        refine ⟨fun _ => hwl, fun k2 hk2 => ?_⟩
        rw [show ({ s with resourceUses := mapSet s.resourceUses k (getKeyUses s k + 1) }
            : UseStats).waiting = s.waiting from rfl, hwl] at hk2
        simp at hk2
    | initKey k c =>
        have hstate : (stepOp s (.initKey k c)).state
            = { s with resourceUses := mapSet s.resourceUses k c } := by
          simp [stepOp, hw2, hwl]
        rw [hstate]
        refine ⟨fun _ => hwl, fun k2 hk2 => ?_⟩
        rw [show ({ s with resourceUses := mapSet s.resourceUses k c }
            : UseStats).waiting = s.waiting from rfl, hwl] at hk2
        simp at hk2
    | waitKey k =>
        by_cases hm : mapMem s.resourceUses k = true
        · have hstate : (stepOp s (.waitKey k)).state = s := by simp [stepOp, hw2, hm]
          rw [hstate]
          exact ⟨h1, h2⟩
        · have hm2 : mapMem s.resourceUses k = false := by simpa using hm
          have hstate : (stepOp s (.waitKey k)).state
              = { s with waiting := k :: s.waiting, wedged := true } := by
            simp [stepOp, hw2, hm2]
          rw [hstate]
          constructor
          · intro hfalse
            exact absurd hfalse (by simp)
          · intro k2 hk2
            rw [show ({ s with waiting := k :: s.waiting, wedged := true }
                : UseStats).waiting = k :: s.waiting from rfl, hwl] at hk2
            rw [List.contains_cons] at hk2
            simp at hk2
            rw [show ({ s with waiting := k :: s.waiting, wedged := true }
                : UseStats).resourceUses = s.resourceUses from rfl, hk2]
            exact hm2
    | removedPeer k =>
        have hstate : (stepOp s (.removedPeer k)).state
            = { s with resourceUses := mapDel s.resourceUses k, wedged := true } := by
          simp [stepOp, hw2]
        rw [hstate]
        constructor
        · intro hfalse
          exact absurd hfalse (by simp)
        · intro k2 hk2
          rw [show ({ s with resourceUses := mapDel s.resourceUses k, wedged := true }
              : UseStats).waiting = s.waiting from rfl, hwl] at hk2
          simp at hk2

/-- Running any operation sequence from an invariant state lands in an
invariant state. -/
theorem statsInv_runOps (ops : List TableOp) :
    ∀ s : UseStats, StatsInv s → StatsInv (runOps s ops) := by
  induction ops with
  | nil => intro s h; exact h
  | cons op rest ih =>
      intro s h
      exact ih (stepOp s op).state (statsInv_step s op h)

/-- Claim C8: at every state reachable from the fresh table by any sequence
of table operations, the wait map and the count map are disjoint — every
key of the wait map is absent from the count map and every key of the count
map is absent from the wait map.  (A registered waiter parks holding the
write lock, so no initialization can ever land on an awaited key.) -/
theorem c8_wait_count_disjoint (ops : List TableOp) (k : String) :
    ((runOps UseStats.empty ops).waiting.contains k = true →
      mapMem (runOps UseStats.empty ops).resourceUses k = false) ∧
    (mapMem (runOps UseStats.empty ops).resourceUses k = true →
      (runOps UseStats.empty ops).waiting.contains k = false) := by
  have hinv := statsInv_runOps ops UseStats.empty statsInv_empty
  refine ⟨hinv.2 k, fun hm => ?_⟩
  by_cases hc : (runOps UseStats.empty ops).waiting.contains k = true
  · rw [hinv.2 k hc] at hm
    exact absurd hm (by simp)
  · simpa using hc

/-- Witness for the disjointness invariant after a parked wait. -/
theorem c8_wait_count_disjoint_witness :
    mapMem (runOps UseStats.empty [TableOp.waitKey "w"]).resourceUses "w" = false :=
  (c8_wait_count_disjoint [TableOp.waitKey "w"] "w").1 (by decide)

/-- Claim C9: a message on the added-peer channel that is not a
`newPeerSignal` (or a closed channel) makes `listenNewPeers` return
permanently — nothing is initialized for that message and no later
added-peer event is ever processed — while `listenOffPeers` skips non-peer
messages and keeps processing later removals. -/
theorem c9_junk_halts_added_listener (pre rest : List NewPeerMsg)
    (off1 off2 : List OffPeerMsg) :
    listenNewPeersProcessed (pre ++ NewPeerMsg.other :: rest)
      = listenNewPeersProcessed (pre ++ [NewPeerMsg.other]) ∧
    listenNewPeersProcessed (NewPeerMsg.other :: rest) = [] ∧
    listenOffPeersProcessed (off1 ++ OffPeerMsg.other :: off2)
      = listenOffPeersProcessed off1 ++ listenOffPeersProcessed off2 := by
  refine ⟨?_, rfl, ?_⟩
  · induction pre with
    | nil => rfl
    | cons m pre ih => cases m <;> simp [listenNewPeersProcessed, ih]
  · induction off1 with
    | nil => simp [listenOffPeersProcessed]
    | cons m off1 ih => cases m <;> simp [listenOffPeersProcessed, ih]

/-- Claim C10: the snapshot produced from a bin is a permutation of the
bin's membership — it holds exactly the peers the bin's iterator yields,
each exactly once, and its length is the number of iterated peers (equal to
the bin's `Size` field by the Bin interface contract taken as hypothesis);
sorting never drops or duplicates a peer. -/
theorem c10_snapshot_permutation (bin : PeerBin) (s : UseStats)
    (hsize : bin.size = bin.peers.length) :
    ((peerBinToPeerList s bin).map LBPeer.peer).Perm bin.peers ∧
    (peerBinToPeerList s bin).length = bin.peers.length := by
  have hperm : ((peerBinToPeerList s bin).map LBPeer.peer).Perm bin.peers := by
    unfold peerBinToPeerList resourcesToLbPeers toLBPeers
    rw [List.map_map]
    rw [show LBPeer.peer ∘ LBPeer.mk = id from rfl, List.map_id]
    exact sortResources_perm s bin.peers
  refine ⟨hperm, ?_⟩
  have hlen := hperm.length_eq
  rwa [List.length_map] at hlen

/-- Witness for the snapshot permutation on the four-peer bin. -/
theorem c10_snapshot_permutation_witness :
    ((peerBinToPeerList c1Stats c1Bin).map LBPeer.peer).Perm c1Bin.peers ∧
    (peerBinToPeerList c1Stats c1Bin).length = c1Bin.peers.length :=
  c10_snapshot_permutation c1Bin c1Stats (by decide)

end KLB
